import Mathlib

/-!
Verification of the networking / event-orchestration core of the
J-Discord-AI-Core repository, as a shallow embedding in Lean 4.

The embedded components are:
  * the per-route rate limiter of the Discord gateway client
    (`checkRateLimit` / `updateRateLimit` / `getRouteKey`),
  * the gateway sequence tracking of `handleGatewayMessage`,
  * the event system (`on` / `once` / `off` / `emit` /
    `processEvent` / `executeEventListeners` / `executeMiddleware` /
    `applyEventFilters`),
  * the dual-provider orchestration of `AIEngine.processIntelligence`.

JavaScript-specific behaviour is modelled explicitly:
  * `x || d` on numbers treats `0` as falsy and yields the default `d`;
  * `if (s)` is false for `null` and for `0`;
  * `Array.prototype.sort` is a stable sort;
  * a `for...of` loop iterates with a cursor index over the *live* array,
    so `splice`-ing the current element shifts the next element into the
    current slot and the iterator then skips it;
  * handler results and thrown exceptions are modelled by explicit
    outcome values; `try { ... } catch { continue }` becomes a branch.

Time stamps (`Date.now()`) are passed in explicitly as `Nat` parameters.
String listener ids are modelled as `Nat` ids: `on` receives the already
resolved id (`options.id || generated`).
-/

namespace DiscordCore

/-! ## Rate limiter (src/unnamed/part_003, `DiscordClient`)

`getRouteKey`, `checkRateLimit` and `updateRateLimit`.

Response headers are modelled after `parseInt` has run: `none` stands for
a missing or non-numeric header (`parseInt` gives `NaN`), `some n` for a
numeric value.  The JavaScript expression `parseInt(h) || d` collapses
both `NaN` and `0` to the default `d`; `jsNumOr` embeds exactly that. -/

/-- `x || d` on a parsed integer: `NaN` (here `none`) and `0` are falsy. -/
def jsNumOr (v : Option Nat) (d : Nat) : Nat :=
  match v with
  | none => d
  | some 0 => d
  | some n => n

/-- One rate-limit bucket: `{ resetTime: Date.now() + resetAfter * 1000 }`. -/
structure RLBucket where
  resetTime : Nat
  deriving Repr, DecidableEq

/-- `this.rateLimits` — a map from route key to bucket. -/
abbrev RateLimits := List (String × RLBucket)

def lookupRL (rl : RateLimits) (route : String) : Option RLBucket :=
  match rl.find? (fun p => p.1 == route) with
  | some p => some p.2
  | none => none

def setRL (rl : RateLimits) (route : String) (b : RLBucket) : RateLimits :=
  if (rl.find? (fun p => p.1 == route)).isSome then
    rl.map (fun p => if p.1 == route then (p.1, b) else p)
  else
    rl ++ [(route, b)]

/-- `getRouteKey(endpoint)`: `endpoint.split('/').slice(0, 2).join('/')`. -/
def getRouteKey (endpoint : String) : String :=
  String.intercalate "/" ((endpoint.splitOn "/").take 2)

/-- The two rate-limit response headers, after `parseInt`. -/
structure RLHeaders where
  remaining : Option Nat
  resetAfter : Option Nat
  deriving Repr, DecidableEq

/-- `updateRateLimit(endpoint, headers)`:
`remaining = parseInt(headers.get('x-ratelimit-remaining')) || 1`,
`resetAfter = parseInt(headers.get('x-ratelimit-reset-after')) || 1`;
a bucket is stored only when `remaining === 0`. -/
def updateRateLimit (rl : RateLimits) (now : Nat) (endpoint : String)
    (h : RLHeaders) : RateLimits :=
  let route := getRouteKey endpoint
  let remaining := jsNumOr h.remaining 1
  let resetAfter := jsNumOr h.resetAfter 1
  if remaining = 0 then
    setRL rl route { resetTime := now + resetAfter * 1000 }
  else
    rl

/-- `checkRateLimit(endpoint)` — the number of milliseconds the caller is
suspended: `resetTime - Date.now()` when the bucket's reset time is in the
future, `0` otherwise (the request is dispatched immediately). -/
def checkRateLimitWait (rl : RateLimits) (now : Nat) (endpoint : String) : Nat :=
  match lookupRL rl (getRouteKey endpoint) with
  | some b => if b.resetTime > now then b.resetTime - now else 0
  | none => 0

/-! ## Gateway sequence tracking (src/unnamed/part_003, `handleGatewayMessage`)

`if (s) { this.lastSequence = s; }` — the truthiness test skips both a
missing sequence (`null`) and the number `0`. -/

/-- One `handleGatewayMessage` step restricted to the `lastSequence`
update.  `s = none` models a frame without a sequence number. -/
def updateLastSequence (last : Option Nat) (s : Option Nat) : Option Nat :=
  match s with
  | some v => if v ≠ 0 then some v else last
  | none => last

/-- Deliver a list of frames (their `s` fields) to a fresh session
(`lastSequence = null`) and return the final tracked sequence. -/
def trackSequences (frames : List (Option Nat)) : Option Nat :=
  frames.foldl updateLastSequence none

/-- The successive values taken by `this.lastSequence` over a delivery. -/
def sequenceTrace (frames : List (Option Nat)) : List (Option Nat) :=
  frames.scanl updateLastSequence none

/-- Maximum of a list of sequence numbers (`none` when no frame carried one). -/
def listMax : List Nat → Option Nat
  | [] => none
  | x :: xs =>
    match listMax xs with
    | none => some x
    | some m => some (Nat.max x m)

/-- Order on tracked sequence values: `none` (still unset) below everything. -/
def optLe (a b : Option Nat) : Prop :=
  match a, b with
  | none, _ => True
  | some x, some y => x ≤ y
  | some _, none => False

instance (a b : Option Nat) : Decidable (optLe a b) := by
  unfold optLe
  match a, b with
  | none, _ => exact inferInstance
  | some x, some y => exact inferInstance
  | some _, none => exact inferInstance

/-! ## Event system (src/unnamed/part_002, `EventSystem`)

Handlers, listener filters, middleware and event filters are opaque
callables; their observable behaviour during one invocation is embedded
as data:
  * `HOutcome` — whether the handler completes or throws / times out
    (both failure modes are caught by the same `catch`);
  * `filterPass` — `none`: no filter; `some b`: a filter returning `b`
    (a filter that throws is caught by the surrounding `catch`, which
    `continue`s exactly like a `false` result and is subsumed by
    `some false`);
  * event filters are modelled by their boolean results (a throwing
    event filter is caught and lets the event through, i.e. `true`).

Event argument values are opaque and play no role in the control flow,
so they are not carried around. -/

/-- Result of invoking one listener handler: it either completes, or it
throws / exceeds its timeout (`Promise.race` rejection). -/
inductive HOutcome
  | ok
  | err
  deriving Repr, DecidableEq

/-- One entry of `this.eventListeners.get(name)` as built by `on`. -/
structure Listener where
  id : Nat
  priority : Nat
  once : Bool
  filterPass : Option Bool
  outcome : HOutcome
  deriving Repr, DecidableEq

/-- `this.eventListeners` — map from event name to listener array. -/
abbrev EMap := List (String × List Listener)

def lookupE (m : EMap) (name : String) : Option (List Listener) :=
  match m.find? (fun p => p.1 == name) with
  | some p => some p.2
  | none => none

def setE (m : EMap) (name : String) (ls : List Listener) : EMap :=
  if (m.find? (fun p => p.1 == name)).isSome then
    m.map (fun p => if p.1 == name then (p.1, ls) else p)
  else
    m ++ [(name, ls)]

/-- `this.eventListeners.get(name)` after the `has` guard: `[]` if absent. -/
def getE (m : EMap) (name : String) : List Listener :=
  (lookupE m name).getD []

/-- Stable insertion of a listener into a priority-ascending list: it
goes after every element of lower or equal priority.  Folded over a
list this computes exactly the stable sort performed by
`.sort((a, b) => a.priority - b.priority)` (Array.prototype.sort is
stable). -/
def insertByPriority (x : Listener) : List Listener → List Listener
  | [] => [x]
  | y :: ys =>
    if y.priority < x.priority then y :: insertByPriority x ys
    else x :: y :: ys

/-- `.sort((a, b) => a.priority - b.priority)` — stable sort by
ascending priority. -/
def sortByPriority (l : List Listener) : List Listener :=
  l.foldr insertByPriority []

/-- The caller-visible `options` of `on` (the handler behaviour rides
along as `outcome`).  `priority : Option Nat` models the JavaScript
`options.priority || 5`: both an absent priority and a priority of `0`
fall back to the default `5`.  `options.once || false` keeps `Bool`. -/
structure OnOptions where
  priority : Option Nat := none
  once : Bool := false
  filterPass : Option Bool := none
  deriving Repr, DecidableEq

/-- The listener record `on` pushes, with the id already resolved
(`options.id || generated`). -/
def mkListener (id : Nat) (outcome : HOutcome) (o : OnOptions) : Listener :=
  { id := id
    priority := jsNumOr o.priority 5
    once := o.once
    filterPass := o.filterPass
    outcome := outcome }

/-- `on(eventName, handler, options)`: ensure the entry exists, push the
listener, then re-sort the array by priority (stable).  (`on` is a
reserved word in Lean, hence the name `onE`.) -/
def onE (m : EMap) (name : String) (id : Nat) (outcome : HOutcome)
    (o : OnOptions) : EMap :=
  setE m name (sortByPriority (getE m name ++ [mkListener id outcome o]))

/-- `once(eventName, handler, options)` = `on` with `once: true`. -/
def onceOn (m : EMap) (name : String) (id : Nat) (outcome : HOutcome)
    (o : OnOptions) : EMap :=
  onE m name id outcome { o with once := true }

/-- The array-level part of `off`: `findIndex(l => l.id === listenerId)`
followed by `splice(index, 1)`; returns whether an element was removed. -/
def offList (ls : List Listener) (id : Nat) : Bool × List Listener :=
  match ls.findIdx? (fun l => l.id == id) with
  | some i => (true, ls.eraseIdx i)
  | none => (false, ls)

/-- `off(eventName, listenerId)`: `false` when the event name is absent,
otherwise remove the first listener with the given id from the live
array. -/
def off (m : EMap) (name : String) (id : Nat) : Bool × EMap :=
  match lookupE m name with
  | none => (false, m)
  | some ls =>
    let r := offList ls id
    (r.1, if r.1 then setE m name r.2 else m)

/-! ### `executeEventListeners`

The loop `for (const listener of listeners)` iterates with a cursor
index over the live array `this.eventListeners.get(eventName)`.  The
body:
  * `continue`s when the listener's filter is present and returns false
    (or throws — caught by the same `catch`);
  * invokes the handler; a throw or timeout is caught and the loop
    `continue`s;
  * after a successful handler of a `once` listener, calls
    `this.off(eventName, listener.id)`, which splices the array at
    `findIndex(id)`; the cursor has already advanced past the spliced
    slot, so the element that shifted into it is skipped.

`execLoop arr i` returns the invoked listeners (in invocation order)
and the final state of the array. -/

theorem offList_length_le (ls : List Listener) (id : Nat) :
    (offList ls id).2.length ≤ ls.length := by
  unfold offList
  cases hf : ls.findIdx? (fun l => l.id == id) with
  | none => simp
  | some j =>
    simp only
    exact List.length_eraseIdx_le ls j

def execLoop (arr : List Listener) (i : Nat) : List Listener × List Listener :=
  if h : i < arr.length then
    let l := arr.get ⟨i, h⟩
    if l.filterPass = some false then
      execLoop arr (i + 1)
    else
      match l.outcome with
      | .err =>
        let r := execLoop arr (i + 1)
        (l :: r.1, r.2)
      | .ok =>
        if l.once then
          let arr' := (offList arr l.id).2
          let r := execLoop arr' (i + 1)
          (l :: r.1, r.2)
        else
          let r := execLoop arr (i + 1)
          (l :: r.1, r.2)
  else
    ([], arr)
termination_by arr.length - i
decreasing_by
  all_goals simp_wf
  all_goals try omega
  all_goals have := offList_length_le arr arr[i].id
  all_goals omega

/-- `executeEventListeners(eventName, args)` at the map level: run the
loop over the live array and leave whatever `off` made of it in the
map. -/
def executeEventListeners (m : EMap) (name : String) :
    List Listener × EMap :=
  let r := execLoop (getE m name) 0
  (r.1, setE m name r.2)

/-! ### Middleware, event filters, `processEvent`, `emit` -/

/-- Middleware phase: `options.type || 'pre'` ∈ pre, post, error. -/
inductive MwPhase
  | pre
  | post
  | error
  deriving Repr, DecidableEq

/-- One entry of `this.middlewareStack.get(name)` as built by `use`.
`throws` records whether the middleware function throws when invoked
(it is caught and the loop continues either way). -/
structure Middleware where
  id : Nat
  priority : Nat
  phase : MwPhase
  throws : Bool
  deriving Repr, DecidableEq

/-- `this.middlewareStack` — map from event name to middleware array. -/
abbrev MwMap := List (String × List Middleware)

def getMw (m : MwMap) (name : String) : List Middleware :=
  match m.find? (fun p => p.1 == name) with
  | some p => p.2
  | none => []

/-- `executeMiddleware(eventName, type, args)`: filter the stack by
phase and invoke each entry in order; a throwing middleware is caught
and the loop continues.  The result is the list of middleware ids that
were invoked (invocation happens for every entry in the filtered
list). -/
def executeMiddleware (mws : List Middleware) (ph : MwPhase) : List Nat :=
  (mws.filter (fun m => m.phase == ph)).map (fun m => m.id)

/-- `this.eventFilters` — map from event name to the registered filter
predicates, modelled by their boolean results for the event at hand.  A
filter that throws is caught and the event is let through, exactly like
a `true` result. -/
abbrev FMap := List (String × List Bool)

def getF (m : FMap) (name : String) : List Bool :=
  match m.find? (fun p => p.1 == name) with
  | some p => p.2
  | none => []

/-- `applyEventFilters(eventName, args)`: `false` as soon as one filter
returns false, `true` otherwise. -/
def applyEventFilters (fs : List Bool) : Bool :=
  fs.all (fun b => b)

/-- The full event system state touched by `processEvent`. -/
structure EventSys where
  eventListeners : EMap
  middlewareStack : MwMap
  eventFilters : FMap
  enableFiltering : Bool
  eventsProcessed : Nat
  errorEvents : Nat
  deriving Repr, DecidableEq

/-- What one `processEvent` run did: was the event dropped by filters,
which listeners were invoked, which pre/post/error middleware ran. -/
structure PTrace where
  filtered : Bool
  invoked : List Listener
  preMw : List Nat
  postMw : List Nat
  errorMw : List Nat
  deriving Repr, DecidableEq

/-- The `try` block of `processEvent`: filters → pre-middleware →
listeners → post-middleware → metrics.  The result is `Except` so that
the `catch` of `processEvent` is an honest branch; every stage of the
body catches its own callables' errors internally (see
`applyEventFilters`, `executeMiddleware`, `execLoop`), so the body
always returns `Except.ok`. -/
def processEventTry (sys : EventSys) (name : String) :
    Except Unit (PTrace × EventSys) :=
  let fs := getF sys.eventFilters name
  if sys.enableFiltering ∧ ¬ applyEventFilters fs then
    Except.ok ({ filtered := true, invoked := [], preMw := [], postMw := []
                 errorMw := [] }, sys)
  else
    let mws := getMw sys.middlewareStack name
    let preRan := executeMiddleware mws .pre
    let r := executeEventListeners sys.eventListeners name
    let postRan := executeMiddleware mws .post
    -- `updateEventMetrics` (gated by `config.enableMetrics`) is abstracted
    -- to the processed-event counter; no claim observes the metrics.
    Except.ok ({ filtered := false, invoked := r.1, preMw := preRan
                 postMw := postRan, errorMw := [] },
               { sys with eventListeners := r.2
                          eventsProcessed := sys.eventsProcessed + 1 })

/-- `processEvent(eventData)`: run the try block; on a thrown error run
the error-phase middleware with `[error, ...args]` and count an error
event. -/
def processEvent (sys : EventSys) (name : String) : PTrace × EventSys :=
  match processEventTry sys name with
  | .ok r => r
  | .error _ =>
    let mws := getMw sys.middlewareStack name
    ({ filtered := false, invoked := [], preMw := [], postMw := []
       errorMw := executeMiddleware mws .error },
     { sys with errorEvents := sys.errorEvents + 1 })

/-- The part of the `EventSystem` state read and written by `emit`'s
enqueue step.  Queue entries are event names (the argument tuple is
opaque). -/
structure EmitState where
  eventQueue : List String
  maxQueueSize : Nat
  eventsQueued : Int
  deriving Repr, DecidableEq

/-- `emit(eventName, ...args)` up to its return value: if the queue is
full the event is dropped, `eventsQueued` is decremented and `false` is
returned; otherwise the event is enqueued and `true` is returned (queue
processing itself never throws, every layer below catches).  -/
def emit (st : EmitState) (name : String) : Bool × EmitState :=
  if st.eventQueue.length ≥ st.maxQueueSize then
    (false, { st with eventsQueued := st.eventsQueued - 1 })
  else
    (true, { st with eventQueue := st.eventQueue ++ [name]
                     eventsQueued := st.eventsQueued + 1 })

/-! ## Provider orchestration (src/modules/ai-engine.js, `processIntelligence`)

`callAIProvider` either resolves to the trimmed message content or
throws; `POutcome` embeds that.  An empty content string is falsy, so
`if (response)` falls through without touching the error bookkeeping. -/

/-- Result of one `callAIProvider` call. -/
inductive POutcome
  | ok (resp : String)
  | err
  deriving Repr, DecidableEq

/-- `this.providerStatus.primary` / `.fallback` (the `lastError` string
is dropped; only its presence would matter and no claim touches it). -/
structure PStatus where
  available : Bool
  errorCount : Nat
  deriving Repr, DecidableEq

structure ProviderStatus where
  primary : PStatus
  fallback : PStatus
  deriving Repr, DecidableEq

/-- `{ primary: { available: true, errorCount: 0 }, fallback: ... }`. -/
def initProviderStatus : ProviderStatus :=
  { primary := { available := true, errorCount := 0 }
    fallback := { available := true, errorCount := 0 } }

/-- Where the returned response came from. -/
inductive AIResult
  | primaryResp (r : String)
  | fallbackResp (r : String)
  | builtin
  deriving Repr, DecidableEq

/-- Everything `processIntelligence` does that the claims observe. -/
structure AIRun where
  result : AIResult
  status : ProviderStatus
  attemptedPrimary : Bool
  attemptedFallback : Bool
  deriving Repr, DecidableEq

/-- `processIntelligence(prompt, context, maxTokens)`: try the primary
provider when `available`; on a throw increment `errorCount` and disable
the provider when `errorCount > 5`; then try the fallback provider when
`available` under the same bookkeeping (the fallback is never disabled);
finally fall back to `generateBuiltInResponse`. -/
def processIntelligence (st : ProviderStatus) (pOut fOut : POutcome) : AIRun :=
  let afterPrimary : ProviderStatus × Option String × Bool :=
    if st.primary.available then
      match pOut with
      | .ok r =>
        if r ≠ "" then (st, some r, true)
        else (st, none, true)
      | .err =>
        let ec := st.primary.errorCount + 1
        ({ st with primary :=
             { available := if ec > 5 then false else st.primary.available
               errorCount := ec } }, none, true)
    else (st, none, false)
  match afterPrimary with
  | (st1, some r, ap) =>
    { result := .primaryResp r, status := st1
      attemptedPrimary := ap, attemptedFallback := false }
  | (st1, none, ap) =>
    if st1.fallback.available then
      match fOut with
      | .ok r =>
        if r ≠ "" then
          { result := .fallbackResp r, status := st1
            attemptedPrimary := ap, attemptedFallback := true }
        else
          { result := .builtin, status := st1
            attemptedPrimary := ap, attemptedFallback := true }
      | .err =>
        { result := .builtin
          status := { st1 with fallback :=
            { st1.fallback with errorCount := st1.fallback.errorCount + 1 } }
          attemptedPrimary := ap, attemptedFallback := true }
    else
      { result := .builtin, status := st1
        attemptedPrimary := ap, attemptedFallback := false }

/-- `n` consecutive requests whose primary call throws (the fallback
answers successfully), starting from a fresh engine. -/
def iterateFailPrimary : Nat → ProviderStatus
  | 0 => initProviderStatus
  | n + 1 => (processIntelligence (iterateFailPrimary n) .err (.ok "f")).status

/-! ## Helper lemmas -/

theorem lookupE_map_replace (m : EMap) (name : String) (ls : List Listener)
    (h : (m.find? (fun p => p.1 == name)).isSome) :
    lookupE (m.map (fun p => if p.1 == name then (p.1, ls) else p)) name
      = some ls := by
  induction m with
  | nil => simp at h
  | cons p t ih =>
    simp only [List.map_cons]
    by_cases hp : p.1 == name
    · rw [if_pos hp]
      simp [lookupE, List.find?, hp]
    · rw [if_neg hp]
      have ht : (t.find? (fun q => q.1 == name)).isSome := by
        simpa [List.find?, hp] using h
      have hrec := ih ht
      simp only [lookupE, List.find?, hp] at hrec ⊢
      simpa using hrec

theorem lookupE_append_new (m : EMap) (name : String) (ls : List Listener)
    (h : m.find? (fun p => p.1 == name) = none) :
    lookupE (m ++ [(name, ls)]) name = some ls := by
  unfold lookupE
  rw [List.find?_append, h, Option.none_or]
  simp [List.find?]

theorem lookupE_setE (m : EMap) (name : String) (ls : List Listener) :
    lookupE (setE m name ls) name = some ls := by
  unfold setE
  by_cases h : (m.find? (fun p => p.1 == name)).isSome
  · simpa [h] using lookupE_map_replace m name ls h
  · have hn : m.find? (fun p => p.1 == name) = none :=
      Option.not_isSome_iff_eq_none.mp h
    simpa [h] using lookupE_append_new m name ls hn

theorem getE_setE (m : EMap) (name : String) (ls : List Listener) :
    getE (setE m name ls) name = ls := by
  simp [getE, lookupE_setE]

/-! ## C1 — rate limiting of REST requests -/

/-- **C1.** The claim asserts that after a response reporting
`remaining = 0, resetAfter = 2000ms`, a request to the same route issued
immediately afterwards is suspended for the remainder of the window.  In
the code `parseInt(h) || 1` maps a parsed `0` to the default `1`, so
`remaining === 0` is never true, `updateRateLimit` never stores a
bucket (first conjunct: it is the identity on every input), and the
request issued right after such a response is dispatched with zero
wait (second conjunct, evaluated at the failing input). -/
theorem rate_limit_never_stored :
    (∀ (rl : RateLimits) (now : Nat) (ep : String) (h : RLHeaders),
      updateRateLimit rl now ep h = rl) ∧
    checkRateLimitWait
      (updateRateLimit [] 0 "channels/0/messages"
        { remaining := some 0, resetAfter := some 2 }) 5
      "channels/0/messages" = 0 := by
  constructor
  · intro rl now ep h
    unfold updateRateLimit
    rcases h with ⟨rem, reset⟩
    rcases rem with _ | n
    · rfl
    · rcases n with _ | n <;> simp [jsNumOr]
  · rfl

/-! ## C7 — emit backpressure -/

/-- **C7.** `emit` returns `false` exactly when the bounded queue is
already at (or beyond) `maxQueueSize`, in which case the queue is left
unchanged (the event is dropped, nothing is thrown — `emit` is a total
function); otherwise the event is appended and `true` is returned. -/
theorem emit_backpressure (st : EmitState) (name : String) :
    ((emit st name).1 = false ↔ st.maxQueueSize ≤ st.eventQueue.length) ∧
    (st.maxQueueSize ≤ st.eventQueue.length →
      (emit st name).2.eventQueue = st.eventQueue) ∧
    (st.eventQueue.length < st.maxQueueSize →
      (emit st name).1 = true ∧
      (emit st name).2.eventQueue = st.eventQueue ++ [name]) := by
  unfold emit
  by_cases hfull : st.eventQueue.length ≥ st.maxQueueSize
  · simp [hfull]
  · simp [hfull]

theorem emit_backpressure_witness :
    ((emit ⟨["a", "b"], 2, 2⟩ "c").1 = false ↔
      (2 : Nat) ≤ (["a", "b"] : List String).length) ∧
    ((2 : Nat) ≤ (["a", "b"] : List String).length →
      (emit ⟨["a", "b"], 2, 2⟩ "c").2.eventQueue = ["a", "b"]) ∧
    ((["a", "b"] : List String).length < 2 →
      (emit ⟨["a", "b"], 2, 2⟩ "c").1 = true ∧
      (emit ⟨["a", "b"], 2, 2⟩ "c").2.eventQueue = ["a", "b"] ++ ["c"]) :=
  emit_backpressure ⟨["a", "b"], 2, 2⟩ "c"

/-! ## C9 — idempotence of `off` -/

theorem findIdx?_of_countP_pos (p : Listener → Bool) (ls : List Listener)
    (h : 0 < ls.countP p) :
    ∃ i, ls.findIdx? p = some i ∧
      (ls.eraseIdx i).countP p = ls.countP p - 1 := by
  induction ls with
  | nil => simp at h
  | cons a t ih =>
    by_cases ha : p a
    · exact ⟨0, by simp [List.findIdx?_cons, ha, List.countP_cons, List.eraseIdx]⟩
    · have ht : 0 < t.countP p := by
        simpa [List.countP_cons, ha] using h
      obtain ⟨i, hi, hc⟩ := ih ht
      refine ⟨i + 1, ?_, ?_⟩
      · simp [List.findIdx?_cons, ha, List.findIdx?_succ, hi]
      · simp [List.eraseIdx, List.countP_cons, ha, hc]

theorem findIdx?_eq_none_of_countP_zero (p : Listener → Bool)
    (ls : List Listener) (h : ls.countP p = 0) :
    ls.findIdx? p = none := by
  induction ls with
  | nil => rfl
  | cons a t ih =>
    by_cases ha : p a
    · simp [List.countP_cons, ha] at h
    · have ht : t.countP p = 0 := by simpa [List.countP_cons, ha] using h
      simp [List.findIdx?_cons, ha, ih ht]

/-- **C9.** When the registry for `name` holds exactly one listener with
the given id, the first `off` returns `true`; the second `off` with the
same arguments returns `false` and leaves the registry exactly as the
first call left it.  The last conjunct is the general fact behind the
second call: whenever the id is absent for an event name (including an
absent name), `off` returns `false` and changes nothing. -/
theorem off_idempotent (m : EMap) (name : String) (id : Nat)
    (h : (getE m name).countP (fun l => l.id == id) = 1) :
    (off m name id).1 = true ∧
    (off (off m name id).2 name id).1 = false ∧
    (off (off m name id).2 name id).2 = (off m name id).2 ∧
    (∀ (m2 : EMap) (n2 : String) (j : Nat),
      (getE m2 n2).countP (fun l => l.id == j) = 0 →
      off m2 n2 j = (false, m2)) := by
  obtain ⟨ls, hls⟩ : ∃ ls, lookupE m name = some ls := by
    cases hl : lookupE m name with
    | none => simp [getE, hl] at h
    | some ls => exact ⟨ls, rfl⟩
  have hget : getE m name = ls := by simp [getE, hls]
  rw [hget] at h
  obtain ⟨i, hi, hc⟩ :=
    findIdx?_of_countP_pos (fun l => l.id == id) ls (by omega)
  have hzero : (ls.eraseIdx i).countP (fun l => l.id == id) = 0 := by
    omega
  have hoff1 : off m name id = (true, setE m name (ls.eraseIdx i)) := by
    simp [off, hls, offList, hi]
  have hlook2 : lookupE (setE m name (ls.eraseIdx i)) name
      = some (ls.eraseIdx i) := lookupE_setE m name (ls.eraseIdx i)
  have hnone := findIdx?_eq_none_of_countP_zero (fun l => l.id == id) _ hzero
  refine ⟨by rw [hoff1], ?_, ?_, ?_⟩
  · rw [hoff1]
    simp [off, hlook2, offList, hnone]
  · rw [hoff1]
    simp [off, hlook2, offList, hnone]
  · intro m2 n2 j hcnt
    cases hl2 : lookupE m2 n2 with
    | none => simp [off, hl2]
    | some ls2 =>
      have hget2 : getE m2 n2 = ls2 := by simp [getE, hl2]
      rw [hget2] at hcnt
      have hn2 := findIdx?_eq_none_of_countP_zero (fun l => l.id == j)
        ls2 hcnt
      simp [off, hl2, offList, hn2]

theorem off_idempotent_witness :
    (off [("msg", [⟨7, 5, false, none, .ok⟩])] "msg" 7).1 = true ∧
    (off (off [("msg", [⟨7, 5, false, none, .ok⟩])] "msg" 7).2 "msg" 7).1
      = false ∧
    (off (off [("msg", [⟨7, 5, false, none, .ok⟩])] "msg" 7).2 "msg" 7).2
      = (off [("msg", [⟨7, 5, false, none, .ok⟩])] "msg" 7).2 ∧
    (∀ (m2 : EMap) (n2 : String) (j : Nat),
      (getE m2 n2).countP (fun l => l.id == j) = 0 →
      off m2 n2 j = (false, m2)) :=
  off_idempotent [("msg", [⟨7, 5, false, none, .ok⟩])] "msg" 7 (by decide)

/-! ## C5 — gateway sequence tracking -/

theorem updateLastSequence_nonzero (last : Option Nat) (v : Nat) (h : v ≠ 0) :
    updateLastSequence last (some v) = some v := by
  simp [updateLastSequence, h]

theorem listMax_cons_exists (y : Nat) (t : List Nat) :
    ∃ m, listMax (y :: t) = some m ∧ y ≤ m := by
  cases h : listMax t with
  | none => exact ⟨y, by simp [listMax, h], Nat.le_refl y⟩
  | some m => exact ⟨Nat.max y m, by simp [listMax, h], Nat.le_max_left y m⟩

theorem foldl_track_eq_listMax (t : List Nat) :
    ∀ a, List.Chain' (· < ·) (a :: t) → (∀ y ∈ t, y ≠ 0) →
      List.foldl updateLastSequence (some a) (t.map some) = listMax (a :: t) := by
  induction t with
  | nil => intro a _ _; simp [listMax]
  | cons y t2 ih =>
    intro a hch hnz
    have hy : y ≠ 0 := hnz y (by simp)
    have hay : a < y := (List.chain'_cons.mp hch).1
    have hch2 : List.Chain' (· < ·) (y :: t2) := (List.chain'_cons.mp hch).2
    have hnz2 : ∀ z ∈ t2, z ≠ 0 := fun z hz => hnz z (by simp [hz])
    obtain ⟨m, hm, hym⟩ := listMax_cons_exists y t2
    have hunf : listMax (a :: y :: t2)
        = match listMax (y :: t2) with
          | none => some a
          | some mm => some (Nat.max a mm) := rfl
    have hstep : listMax (a :: y :: t2) = some m := by
      rw [hunf, hm]
      simp [Nat.max_eq_right (Nat.le_trans (Nat.le_of_lt hay) hym)]
    rw [hstep]
    simp only [List.map_cons, List.foldl_cons,
      updateLastSequence_nonzero (some a) y hy]
    rw [ih y hch2 hnz2, hm]

theorem scanl_head_cons {α β : Type} (f : β → α → β) (b : β) (l : List α) :
    ∃ rest, List.scanl f b l = b :: rest := by
  cases l with
  | nil => exact ⟨[], by simp⟩
  | cons a t => exact ⟨List.scanl f (f b a) t, by simp [List.scanl_cons]⟩

theorem scanl_track_chain (t : List Nat) :
    ∀ x, List.Chain' (· < ·) (x :: t) → (∀ y ∈ t, y ≠ 0) →
      List.Chain' optLe
        (List.scanl updateLastSequence (some x) (t.map some)) := by
  induction t with
  | nil => intro x _ _; simp
  | cons y t2 ih =>
    intro x hch hnz
    have hy : y ≠ 0 := hnz y (by simp)
    have hxy : x < y := (List.chain'_cons.mp hch).1
    have hch2 : List.Chain' (· < ·) (y :: t2) := (List.chain'_cons.mp hch).2
    have hnz2 : ∀ z ∈ t2, z ≠ 0 := fun z hz => hnz z (by simp [hz])
    have hrest := ih y hch2 hnz2
    obtain ⟨rest, hr⟩ :=
      scanl_head_cons updateLastSequence (some y) (t2.map some)
    simp only [List.map_cons, List.scanl_cons,
      updateLastSequence_nonzero (some x) y hy]
    rw [hr]
    rw [hr] at hrest
    exact List.chain'_cons.mpr ⟨Nat.le_of_lt hxy, hrest⟩

/-- **C5 counterexample.** A dispatch frame carrying the sequence number
`0` is a strictly increasing one-frame delivery, yet the session's
tracked last-sequence stays `null` (`if (s)` treats `0` as absent), so it
does not equal the maximum sequence number observed. -/
theorem zero_sequence_not_tracked :
    List.Chain' (· < ·) ([0] : List Nat) ∧ listMax [0] = some 0 ∧
    trackSequences ([0].map some) ≠ some 0 := by
  refine ⟨by simp, by simp [listMax], ?_⟩
  simp [trackSequences, updateLastSequence]

/-- **C5 (amended).** For dispatch frames carrying strictly increasing
*nonzero* sequence numbers, the tracked last-sequence is non-decreasing
across the deliveries and ends at the maximum observed.  (The nonzero
restriction is forced by the truthiness test `if (s)`, which ignores a
sequence number of `0`.) -/
theorem sequence_tracking_nonzero (ss : List Nat)
    (h1 : List.Chain' (· < ·) ss) (h2 : ∀ x ∈ ss, x ≠ 0) :
    List.Chain' optLe (sequenceTrace (ss.map some)) ∧
    trackSequences (ss.map some) = listMax ss := by
  cases ss with
  | nil => exact ⟨by simp [sequenceTrace], by simp [trackSequences, listMax]⟩
  | cons x t =>
    have hx : x ≠ 0 := h2 x (by simp)
    have h2t : ∀ y ∈ t, y ≠ 0 := fun y hy => h2 y (by simp [hy])
    constructor
    · have hrest := scanl_track_chain t x h1 h2t
      obtain ⟨rest, hr⟩ :=
        scanl_head_cons updateLastSequence (some x) (t.map some)
      simp only [sequenceTrace, List.map_cons, List.scanl_cons,
        updateLastSequence_nonzero none x hx]
      rw [hr]
      rw [hr] at hrest
      exact List.chain'_cons.mpr ⟨trivial, hrest⟩
    · simp only [trackSequences, List.map_cons, List.foldl_cons,
        updateLastSequence_nonzero none x hx]
      exact foldl_track_eq_listMax t x h1 h2t

theorem sequence_tracking_nonzero_witness :
    List.Chain' optLe (sequenceTrace (([1, 3, 7] : List Nat).map some)) ∧
    trackSequences (([1, 3, 7] : List Nat).map some) = listMax [1, 3, 7] :=
  sequence_tracking_nonzero [1, 3, 7]
    (by norm_num [List.chain'_cons]) (by decide)

/-! ## C4 — provider circuit breaking -/

theorem iterateFail_eq (n : Nat) :
    iterateFailPrimary n =
      { primary := { available := decide (n ≤ 5), errorCount := Nat.min n 6 }
        fallback := { available := true, errorCount := 0 } } := by
  induction n with
  | zero => rfl
  | succ k ih =>
    show (processIntelligence (iterateFailPrimary k) .err (.ok "f")).status = _
    rw [ih]
    simp only [processIntelligence]
    by_cases hk : k ≤ 5
    · simp [hk]
      have hmin : Nat.min k 6 = k := Nat.min_eq_left (by omega)
      rw [hmin]
      refine ⟨?_, by omega⟩
      by_cases h4 : k ≤ 4
      · simp [h4, show ¬ (5 < k + 1) by omega]
      · simp [h4, show 5 < k + 1 by omega]
    · simp [hk]
      have hmin : Nat.min k 6 = 6 := Nat.min_eq_right (by omega)
      have hmin2 : Nat.min (k + 1) 6 = 6 := Nat.min_eq_right (by omega)
      rw [hmin, hmin2]
      exact ⟨by omega, rfl⟩

/-- **C4 counterexample.** The consecutive-error threshold is not
configurable and is not 3: after 3 consecutive primary failures the
primary provider is still `available` and the 4th request still calls
it, rather than skipping straight to the fallback. -/
theorem primary_not_skipped_after_three_failures :
    (iterateFailPrimary 3).primary.available = true ∧
    (processIntelligence (iterateFailPrimary 3) .err (.ok "f")).attemptedPrimary = true := by
  decide

/-- **C4 (amended).** The disable threshold is the hard-coded
`errorCount > 5`: after 6 consecutive primary failures (from a fresh
engine) the primary's `available` flag is false, and any later request
skips the primary entirely and goes straight to the fallback provider,
whose (non-empty) response is returned. -/
theorem primary_disabled_after_six_failures (n : Nat) (hn : 6 ≤ n)
    (pOut : POutcome) (r : String) (hr : r ≠ "") :
    (iterateFailPrimary n).primary.available = false ∧
    (processIntelligence (iterateFailPrimary n) pOut (.ok r)).attemptedPrimary = false ∧
    (processIntelligence (iterateFailPrimary n) pOut (.ok r)).attemptedFallback = true ∧
    (processIntelligence (iterateFailPrimary n) pOut (.ok r)).result = .fallbackResp r := by
  rw [iterateFail_eq]
  have h5 : ¬ (n ≤ 5) := by omega
  simp [processIntelligence, h5, hr]

theorem primary_disabled_after_six_failures_witness :
    (iterateFailPrimary 6).primary.available = false ∧
    (processIntelligence (iterateFailPrimary 6) .err (.ok "f")).attemptedPrimary = false ∧
    (processIntelligence (iterateFailPrimary 6) .err (.ok "f")).attemptedFallback = true ∧
    (processIntelligence (iterateFailPrimary 6) .err (.ok "f")).result = .fallbackResp "f" :=
  primary_disabled_after_six_failures 6 (by decide) .err "f" (by decide)

/-! ## Listener-loop lemmas -/

/-- When no registered `once` listener can complete successfully (in
particular when there is no `once` listener at all), the loop never
splices the array: every listener whose filter passes is invoked, in
array order, and the array is left unchanged. -/
theorem execLoop_no_once_ok (arr : List Listener) (i : Nat)
    (h : ∀ l ∈ arr, l.once = true → l.outcome = .err) :
    execLoop arr i
      = ((arr.drop i).filter (fun l => !(l.filterPass == some false)),
         arr) := by
  induction arr, i using execLoop.induct with
  | case1 arr i hlt l hfil ih =>
    have hl : l = arr[i] := rfl
    rw [execLoop, dif_pos hlt, if_pos hfil, ih h]
    rw [List.drop_eq_getElem_cons hlt, List.filter_cons]
    rw [hl] at hfil
    simp [hfil]
  | case2 arr i hlt l hfil r ih =>
    have hl : l = arr[i] := rfl
    rw [hl] at r
    rw [execLoop, dif_pos hlt, if_neg hfil]
    rw [ih h]
    rw [List.drop_eq_getElem_cons hlt, List.filter_cons]
    rw [hl] at hfil
    simp [hfil, r]
  | case3 arr i hlt l hfil r honce ih =>
    exfalso
    have hmem : l ∈ arr := List.get_mem arr i hlt
    have := h l hmem honce
    rw [this] at r
    cases r
  | case4 arr i hlt l hfil r honce ih =>
    have hl : l = arr[i] := rfl
    rw [hl] at r honce
    rw [execLoop, dif_pos hlt, if_neg hfil]
    rw [ih h]
    rw [List.drop_eq_getElem_cons hlt, List.filter_cons]
    rw [hl] at hfil
    simp [hfil, r, honce]
  | case5 arr i hlt =>
    rw [execLoop, dif_neg hlt]
    rw [List.drop_eq_nil_of_le (by omega)]
    simp

/-! ## C3 — error middleware and listener failures -/

/-- **C3 (amended).** Listener failures never reach the error-middleware
phase: every stage in the body of `processEvent`'s `try` block catches
its callables' errors internally (in particular `executeEventListeners`
catches each listener's throw and `continue`s), so the `catch` that
would run error-phase middleware is unreachable and no error middleware
is ever executed by `processEvent`. -/
theorem error_middleware_never_runs (sys : EventSys) (name : String) :
    (processEvent sys name).1.errorMw = [] := by
  unfold processEvent processEventTry
  by_cases hc : sys.enableFiltering = true ∧
      ¬ applyEventFilters (getF sys.eventFilters name) = true
  · rw [if_pos hc]
  · rw [if_neg hc]

/-- The concrete system for the C3 counterexample: one listener for
`"msg"` that throws, one error-phase middleware for `"msg"`. -/
def sysC3 : EventSys :=
  { eventListeners := [("msg", [⟨0, 5, false, none, .err⟩])]
    middlewareStack := [("msg", [⟨0, 5, .error, false⟩])]
    eventFilters := []
    enableFiltering := true
    eventsProcessed := 0
    errorEvents := 0 }

/-- **C3 counterexample.** Processing an emit of `"msg"` on `sysC3`
invokes exactly one listener, that listener fails, an error-phase
middleware is registered for `"msg"` — and yet no error middleware is
executed (the claim demands it run once with the listener's error). -/
theorem error_middleware_not_run_counterexample :
    ((processEvent sysC3 "msg").1.invoked.map fun l => l.outcome)
      = [.err] ∧
    executeMiddleware (getMw sysC3.middlewareStack "msg") .error = [0] ∧
    (processEvent sysC3 "msg").1.errorMw = [] := by
  have h1 : getE sysC3.eventListeners "msg" = [⟨0, 5, false, none, .err⟩] := by
    decide
  have hrun := execLoop_no_once_ok (getE sysC3.eventListeners "msg") 0
    (by rw [h1]; decide)
  refine ⟨?_, by decide, ?_⟩
  · simp only [processEvent, processEventTry, executeEventListeners, hrun]
    simp [sysC3, applyEventFilters, getF]
    decide
  · simp only [processEvent, processEventTry, executeEventListeners, hrun]
    simp [sysC3, applyEventFilters, getF]

/-! ## C2 — listener failure isolation -/

/-- The registry for the C2 counterexample, built through `on`/`once`:
listener 0 is one-shot and throws, listener 1 is one-shot and succeeds,
listener 2 is a plain listener; all at default priority. -/
def regC2 : EMap :=
  onE (onceOn (onceOn [] "msg" 0 .err {}) "msg" 1 .ok {}) "msg" 2 .ok {}

def sysC2 : EventSys :=
  { eventListeners := regC2
    middlewareStack := []
    eventFilters := []
    enableFiltering := true
    eventsProcessed := 0
    errorEvents := 0 }

/-- **C2 counterexample.** Three listeners are registered for `"msg"`
(ids 0, 1, 2 in registration order); listener 0 throws during the emit,
and listener 2 never runs in that same emit.  The throw is the cause:
because the failing one-shot listener 0 is *not* removed, listener 1
sits at index 1 when it completes, and its one-shot removal splices the
live array so the loop skips listener 2.  (Had listener 0 completed
instead, listener 2 would have been invoked.)  So "every other listener
still runs" fails when a listener throws. -/
theorem throwing_listener_counterexample :
    ((getE sysC2.eventListeners "msg").map fun l => l.id) = [0, 1, 2] ∧
    ((processEvent sysC2 "msg").1.invoked.map fun l => (l.id, l.outcome))
      = [(0, .err), (1, .ok)] := by
  constructor
  · decide
  · simp [processEvent, processEventTry, executeEventListeners, execLoop,
      offList, sysC2, regC2, onE, onceOn, mkListener, setE, getE, lookupE,
      getF, applyEventFilters, sortByPriority, insertByPriority, jsNumOr,
      List.findIdx?, List.eraseIdx, List.find?]

/-- One `processEvent` step on a registry whose `once` listeners all
fail, for an event that passes its filters: the full characterization
used by the isolation theorem. -/
theorem processEvent_no_once_ok (sys : EventSys) (name : String)
    (hall : ∀ l ∈ getE sys.eventListeners name,
      l.once = true → l.outcome = .err)
    (hcond : ¬ (sys.enableFiltering = true ∧
      ¬ applyEventFilters (getF sys.eventFilters name) = true)) :
    processEvent sys name
      = ({ filtered := false
           invoked := (getE sys.eventListeners name).filter
             (fun l => !(l.filterPass == some false))
           preMw := executeMiddleware (getMw sys.middlewareStack name) .pre
           postMw := executeMiddleware (getMw sys.middlewareStack name) .post
           errorMw := [] },
         { sys with
             eventListeners := setE sys.eventListeners name
               (getE sys.eventListeners name)
             eventsProcessed := sys.eventsProcessed + 1 }) := by
  unfold processEvent processEventTry
  rw [if_neg hcond]
  simp only [executeEventListeners, execLoop_no_once_ok _ 0 hall,
    List.drop_zero]

/-- **C2 (amended).** In a registry with no one-shot listeners (so that
no splice can shift the live array), a listener that throws prevents
nothing: for an event that passes its filters, the invoked listeners
are exactly the registered ones whose per-listener filter passes, in
array order, whatever the individual outcomes are; the registry is left
unchanged, and the next emit of the same name is processed identically.
With one-shot listeners the original claim is false
(splice-during-iteration, see the counterexample). -/
theorem listener_isolation_no_once (sys : EventSys) (name : String)
    (hOnce : ∀ l ∈ getE sys.eventListeners name, l.once = false)
    (hFilt : sys.enableFiltering = false ∨
      applyEventFilters (getF sys.eventFilters name) = true) :
    (processEvent sys name).1.invoked
      = (getE sys.eventListeners name).filter
          (fun l => !(l.filterPass == some false)) ∧
    getE (processEvent sys name).2.eventListeners name
      = getE sys.eventListeners name ∧
    (processEvent (processEvent sys name).2 name).1.invoked
      = (processEvent sys name).1.invoked := by
  have hall : ∀ l ∈ getE sys.eventListeners name,
      l.once = true → l.outcome = .err := by
    intro l hl h1
    rw [hOnce l hl] at h1
    cases h1
  have hcond : ¬ (sys.enableFiltering = true ∧
      ¬ applyEventFilters (getF sys.eventFilters name) = true) := by
    rcases hFilt with hf | hf
    · rintro ⟨h1, _⟩
      rw [hf] at h1
      cases h1
    · rintro ⟨_, h2⟩
      exact h2 hf
  have hstep := processEvent_no_once_ok sys name hall hcond
  have h2 : getE (processEvent sys name).2.eventListeners name
      = getE sys.eventListeners name := by
    rw [hstep]
    exact getE_setE sys.eventListeners name (getE sys.eventListeners name)
  refine ⟨by rw [hstep], h2, ?_⟩
  have hall2 : ∀ l ∈ getE (processEvent sys name).2.eventListeners name,
      l.once = true → l.outcome = .err := by
    intro l hl h1
    rw [h2] at hl
    rw [hOnce l hl] at h1
    cases h1
  have hcond2 : ¬ ((processEvent sys name).2.enableFiltering = true ∧
      ¬ applyEventFilters
          (getF (processEvent sys name).2.eventFilters name) = true) := by
    have he : (processEvent sys name).2.enableFiltering
        = sys.enableFiltering := by rw [hstep]
    have hf : (processEvent sys name).2.eventFilters
        = sys.eventFilters := by rw [hstep]
    rw [he, hf]
    exact hcond
  have hstep2 := processEvent_no_once_ok (processEvent sys name).2 name
    hall2 hcond2
  rw [hstep2, hstep]
  simp only [h2]
  rw [hstep] at h2
  simp only [h2]

theorem listener_isolation_no_once_witness :
    (processEvent
      { eventListeners := [("msg", [⟨0, 5, false, none, .err⟩])]
        middlewareStack := [], eventFilters := [], enableFiltering := true
        eventsProcessed := 0, errorEvents := 0 } "msg").1.invoked
      = (getE [("msg", [⟨0, 5, false, none, .err⟩])] "msg").filter
          (fun l => !(l.filterPass == some false)) ∧
    getE (processEvent
      { eventListeners := [("msg", [⟨0, 5, false, none, .err⟩])]
        middlewareStack := [], eventFilters := [], enableFiltering := true
        eventsProcessed := 0, errorEvents := 0 } "msg").2.eventListeners "msg"
      = getE [("msg", [⟨0, 5, false, none, .err⟩])] "msg" ∧
    (processEvent (processEvent
      { eventListeners := [("msg", [⟨0, 5, false, none, .err⟩])]
        middlewareStack := [], eventFilters := [], enableFiltering := true
        eventsProcessed := 0, errorEvents := 0 } "msg").2 "msg").1.invoked
      = (processEvent
      { eventListeners := [("msg", [⟨0, 5, false, none, .err⟩])]
        middlewareStack := [], eventFilters := [], enableFiltering := true
        eventsProcessed := 0, errorEvents := 0 } "msg").1.invoked :=
  listener_isolation_no_once
    { eventListeners := [("msg", [⟨0, 5, false, none, .err⟩])]
      middlewareStack := [], eventFilters := [], enableFiltering := true
      eventsProcessed := 0, errorEvents := 0 } "msg"
    (by decide) (Or.inr (by decide))

/-! ## Sublist structure of the listener loop -/

theorem findIdx?_le_of_getElem {α : Type} (p : α → Bool) :
    ∀ (l : List α) (i : Nat) (h : i < l.length), p l[i] = true →
      ∃ j, l.findIdx? p = some j ∧ j ≤ i := by
  intro l
  induction l with
  | nil => intro i h hp; simp at h
  | cons a t ih =>
    intro i h hp
    by_cases ha : p a
    · exact ⟨0, by simp [List.findIdx?_cons, ha], Nat.zero_le i⟩
    · cases i with
      | zero => exact absurd hp ha
      | succ i2 =>
        have h2 : i2 < t.length := by simpa using h
        have hp2 : p t[i2] = true := by simpa using hp
        obtain ⟨j, hj, hle⟩ := ih i2 h2 hp2
        refine ⟨j + 1, ?_, by omega⟩
        simp [List.findIdx?_cons, ha, List.findIdx?_succ, hj]

theorem eraseIdx_drop {α : Type} :
    ∀ (l : List α) (j k : Nat), j < k →
      (l.eraseIdx j).drop k = l.drop (k + 1) := by
  intro l
  induction l with
  | nil => intro j k h; simp [List.eraseIdx]
  | cons a t ih =>
    intro j k h
    cases k with
    | zero => omega
    | succ k2 =>
      cases j with
      | zero => simp [List.eraseIdx]
      | succ j2 =>
        simp only [List.eraseIdx, List.drop_succ_cons]
        exact ih j2 k2 (by omega)

theorem drop_succ_sublist {α : Type} (l : List α) (n : Nat) :
    List.Sublist (l.drop (n + 1)) (l.drop n) := by
  have h1 : l.drop (n + 1) = (l.drop n).drop 1 := by
    rw [List.drop_drop]
  rw [h1]
  exact List.drop_sublist 1 (l.drop n)

/-- The invoked listeners of one loop run form a subsequence of the
portion of the array the cursor had still to visit: splices only ever
skip elements, they never revisit or reorder. -/
theorem execLoop_log_sublist (arr : List Listener) (i : Nat) :
    List.Sublist (execLoop arr i).1 (arr.drop i) := by
  induction arr, i using execLoop.induct with
  | case1 arr i hlt l hfil ih =>
    rw [execLoop, dif_pos hlt, if_pos hfil]
    refine ih.trans ?_
    rw [List.drop_eq_getElem_cons hlt]
    exact List.sublist_cons_self _ _
  | case2 arr i hlt l hfil r ih =>
    have hl : l = arr[i] := rfl
    rw [hl] at r
    rw [execLoop, dif_pos hlt, if_neg hfil]
    simp only [List.get_eq_getElem, r]
    rw [List.drop_eq_getElem_cons hlt]
    exact List.Sublist.cons₂ _ ih
  | case3 arr i hlt l hfil r honce arrp ih =>
    have hl : l = arr[i] := rfl
    rw [hl] at r honce
    obtain ⟨j, hj, hjle⟩ := findIdx?_le_of_getElem
      (fun t => t.id == arr[i].id) arr i hlt (by simp)
    have harr' : (offList arr arr[i].id).2 = arr.eraseIdx j := by
      simp [offList, hj]
    rw [execLoop, dif_pos hlt, if_neg hfil]
    simp only [List.get_eq_getElem, r]
    rw [if_pos honce]
    rw [List.drop_eq_getElem_cons hlt]
    refine List.Sublist.cons₂ _ (ih.trans ?_)
    have harrp : arrp = arr.eraseIdx j := harr'
    rw [harrp, eraseIdx_drop arr j (i + 1) (by omega)]
    exact drop_succ_sublist arr (i + 1)
  | case4 arr i hlt l hfil r honce ih =>
    have hl : l = arr[i] := rfl
    rw [hl] at r honce
    rw [execLoop, dif_pos hlt, if_neg hfil]
    simp only [List.get_eq_getElem, r, honce]
    rw [List.drop_eq_getElem_cons hlt]
    exact List.Sublist.cons₂ _ ih
  | case5 arr i hlt =>
    rw [execLoop, dif_neg hlt]
    exact List.nil_sublist _

/-- The loop only removes elements: the final array is a subsequence of
the initial one. -/
theorem execLoop_arr_sublist (arr : List Listener) (i : Nat) :
    List.Sublist (execLoop arr i).2 arr := by
  induction arr, i using execLoop.induct with
  | case1 arr i hlt l hfil ih =>
    rw [execLoop, dif_pos hlt, if_pos hfil]
    exact ih
  | case2 arr i hlt l hfil r ih =>
    have hl : l = arr[i] := rfl
    rw [hl] at r
    rw [execLoop, dif_pos hlt, if_neg hfil]
    simp only [List.get_eq_getElem, r]
    exact ih
  | case3 arr i hlt l hfil r honce arrp ih =>
    have hl : l = arr[i] := rfl
    rw [hl] at r honce
    obtain ⟨j, hj, hjle⟩ := findIdx?_le_of_getElem
      (fun t => t.id == arr[i].id) arr i hlt (by simp)
    have harr' : (offList arr arr[i].id).2 = arr.eraseIdx j := by
      simp [offList, hj]
    rw [execLoop, dif_pos hlt, if_neg hfil]
    simp only [List.get_eq_getElem, r]
    rw [if_pos honce]
    refine ih.trans ?_
    have harrp : arrp = arr.eraseIdx j := harr'
    rw [harrp]
    exact List.eraseIdx_sublist arr j
  | case4 arr i hlt l hfil r honce ih =>
    have hl : l = arr[i] := rfl
    rw [hl] at r honce
    rw [execLoop, dif_pos hlt, if_neg hfil]
    simp only [List.get_eq_getElem, r, honce]
    exact ih
  | case5 arr i hlt =>
    rw [execLoop, dif_neg hlt]

/-! ## C6 — listener invocation order -/

/-- "Priority, then registration" order: strictly lower priority first;
equal priorities ordered by registration (smaller id — `regAll` below
assigns ids in registration order). -/
def lexLt (a b : Listener) : Prop :=
  a.priority < b.priority ∨ (a.priority = b.priority ∧ a.id < b.id)

/-- Stable insertion: the new element goes after every element of
priority ≤ its own.  Pushing onto a sorted array and re-running the
stable sort is exactly this. -/
def insertLex (x : Listener) : List Listener → List Listener
  | [] => [x]
  | y :: ys =>
    if y.priority ≤ x.priority then y :: insertLex x ys
    else x :: y :: ys

def regAllAux (m : EMap) (name : String) (i : Nat) :
    List (HOutcome × OnOptions) → EMap
  | [] => m
  | s :: rest => regAllAux (onE m name i s.1 s.2) name (i + 1) rest

/-- Register a list of listeners through `on`, with ids 0, 1, 2, … in
registration order. -/
def regAll (name : String) (specs : List (HOutcome × OnOptions)) : EMap :=
  regAllAux [] name 0 specs

theorem insertLex_mem (x : Listener) :
    ∀ (l : List Listener) (z : Listener), z ∈ insertLex x l →
      z = x ∨ z ∈ l := by
  intro l
  induction l with
  | nil => intro z hz; simp [insertLex] at hz; exact Or.inl hz
  | cons y ys ih =>
    intro z hz
    by_cases hyx : y.priority ≤ x.priority
    · rw [insertLex, if_pos hyx] at hz
      rcases List.mem_cons.mp hz with h | h
      · exact Or.inr (by simp [h])
      · rcases ih z h with h2 | h2
        · exact Or.inl h2
        · exact Or.inr (by simp [h2])
    · rw [insertLex, if_neg hyx] at hz
      rcases List.mem_cons.mp hz with h | h
      · exact Or.inl h
      · exact Or.inr h

theorem insertByPriority_not_lt (a : Listener) (t : List Listener)
    (h : ∀ y ∈ t, ¬ (y.priority < a.priority)) :
    insertByPriority a t = a :: t := by
  cases t with
  | nil => rfl
  | cons b t2 =>
    rw [insertByPriority, if_neg (h b (by simp))]

theorem insertLex_all_gt (x : Listener) (t : List Listener)
    (h : ∀ y ∈ t, x.priority < y.priority) :
    insertLex x t = x :: t := by
  cases t with
  | nil => rfl
  | cons b t2 =>
    rw [insertLex, if_neg (Nat.not_le.mpr (h b (by simp)))]

theorem sortByPriority_cons (a : Listener) (l : List Listener) :
    sortByPriority (a :: l) = insertByPriority a (sortByPriority l) := rfl

/-- Pushing a new listener onto a (stably) sorted array and re-sorting
it stably is the same as inserting it after its equal-priority
predecessors. -/
theorem sort_append_eq_insertLex (x : Listener) :
    ∀ (l : List Listener), List.Pairwise lexLt l →
      sortByPriority (l ++ [x]) = insertLex x l := by
  intro l
  induction l with
  | nil => intro _; rfl
  | cons a t ih =>
    intro hp
    obtain ⟨ha, hpt⟩ := List.pairwise_cons.mp hp
    have hstep : sortByPriority ((a :: t) ++ [x])
        = insertByPriority a (insertLex x t) := by
      rw [List.cons_append, sortByPriority_cons, ih hpt]
    rw [hstep]
    by_cases hax : a.priority ≤ x.priority
    · rw [insertLex, if_pos hax]
      apply insertByPriority_not_lt
      intro z hz
      rcases insertLex_mem x t z hz with h | h
      · rw [h]; omega
      · rcases ha z h with h2 | h2
        · omega
        · omega
    · have hxa : x.priority < a.priority := Nat.not_le.mp hax
      have hgt : ∀ y ∈ t, x.priority < y.priority := by
        intro y hy
        rcases ha y hy with h2 | h2
        · omega
        · omega
      rw [insertLex_all_gt x t hgt]
      rw [insertByPriority, if_pos hxa]
      rw [insertByPriority_not_lt a t (by
        intro y hy
        rcases ha y hy with h2 | h2
        · omega
        · omega)]
      rw [insertLex, if_neg hax]

theorem insertLex_pairwise (x : Listener) :
    ∀ (l : List Listener), List.Pairwise lexLt l →
      (∀ y ∈ l, y.id < x.id) →
      List.Pairwise lexLt (insertLex x l) := by
  intro l
  induction l with
  | nil => intro _ _; simp [insertLex, List.pairwise_cons]
  | cons y ys ih =>
    intro hp hid
    obtain ⟨hy, hpys⟩ := List.pairwise_cons.mp hp
    by_cases hyx : y.priority ≤ x.priority
    · rw [insertLex, if_pos hyx]
      refine List.pairwise_cons.mpr ⟨?_, ?_⟩
      · intro z hz
        rcases insertLex_mem x ys z hz with h | h
        · rw [h]
          rcases Nat.lt_or_ge y.priority x.priority with h2 | h2
          · exact Or.inl h2
          · exact Or.inr ⟨by omega, hid y (by simp)⟩
        · exact hy z h
      · exact ih hpys (fun z hz => hid z (by simp [hz]))
    · rw [insertLex, if_neg hyx]
      refine List.pairwise_cons.mpr ⟨?_, hp⟩
      intro z hz
      rcases List.mem_cons.mp hz with h | h
      · rw [h]
        exact Or.inl (Nat.not_le.mp hyx)
      · rcases hy z h with h2 | h2
        · exact Or.inl (by omega)
        · exact Or.inl (by omega)

theorem getE_onE (m : EMap) (name : String) (i : Nat) (outc : HOutcome)
    (o : OnOptions) :
    getE (onE m name i outc o) name
      = sortByPriority (getE m name ++ [mkListener i outc o]) := by
  unfold onE
  exact getE_setE m name _

theorem regAllAux_pairwise (name : String) :
    ∀ (specs : List (HOutcome × OnOptions)) (m : EMap) (i : Nat),
      List.Pairwise lexLt (getE m name) →
      (∀ y ∈ getE m name, y.id < i) →
      List.Pairwise lexLt (getE (regAllAux m name i specs) name) := by
  intro specs
  induction specs with
  | nil => intro m i h1 _; exact h1
  | cons s rest ih =>
    intro m i h1 h2
    have hreg : getE (onE m name i s.1 s.2) name
        = insertLex (mkListener i s.1 s.2) (getE m name) := by
      rw [getE_onE, sort_append_eq_insertLex _ _ h1]
    have h1' : List.Pairwise lexLt (getE (onE m name i s.1 s.2) name) := by
      rw [hreg]
      exact insertLex_pairwise _ _ h1 h2
    have h2' : ∀ y ∈ getE (onE m name i s.1 s.2) name, y.id < i + 1 := by
      rw [hreg]
      intro y hy
      rcases insertLex_mem _ _ y hy with h | h
      · rw [h]
        show i < i + 1
        omega
      · have := h2 y h
        omega
    exact ih (onE m name i s.1 s.2) (i + 1) h1' h2'

/-- **C6.** (General part) For any sequence of `on` registrations, the
listeners invoked by one emit appear in ascending priority order with
ties in registration order — the invocation log is always a
subsequence of the registry array, and the registry array is kept
`lexLt`-sorted by push-then-stable-sort.  (Concrete part) Registering A
with priority 1 and B with priority 5 on `"msg"` and emitting once
invokes A before B. -/
theorem listener_order_priority_stable (name : String)
    (specs : List (HOutcome × OnOptions)) :
    List.Pairwise lexLt (executeEventListeners (regAll name specs) name).1 ∧
    ((executeEventListeners (regAll "msg"
        [(.ok, { priority := some 1 }), (.ok, { priority := some 5 })])
        "msg").1.map fun l => l.id) = [0, 1] := by
  constructor
  · have hpair := regAllAux_pairwise name specs [] 0
      (by simp [getE, lookupE]) (by simp [getE, lookupE])
    have hsub := execLoop_log_sublist (getE (regAll name specs) name) 0
    rw [List.drop_zero] at hsub
    exact List.Pairwise.sublist hsub hpair
  · have h1 : getE (regAll "msg"
        [(.ok, { priority := some 1 }), (.ok, { priority := some 5 })]) "msg"
        = [⟨0, 1, false, none, .ok⟩, ⟨1, 5, false, none, .ok⟩] := by
      decide
    show ((execLoop (getE (regAll "msg"
        [(.ok, { priority := some 1 }), (.ok, { priority := some 5 })])
        "msg") 0).1.map fun l => l.id) = [0, 1]
    rw [execLoop_no_once_ok _ 0 (by rw [h1]; decide)]
    rw [List.drop_zero, h1]
    decide

/-! ## C8 — one-shot listeners -/

theorem offList_sublist (arr : List Listener) (a : Nat) :
    List.Sublist (offList arr a).2 arr := by
  unfold offList
  cases hf : arr.findIdx? (fun l => l.id == a) with
  | none => exact List.Sublist.refl arr
  | some j =>
    simp only
    exact List.eraseIdx_sublist arr j

theorem offList_id_not_mem (a : Nat) :
    ∀ (arr : List Listener), ((arr.map (fun l => l.id)).Nodup) →
      a ∉ ((offList arr a).2.map (fun l => l.id)) := by
  intro arr
  induction arr with
  | nil => intro _; simp [offList]
  | cons h t ih =>
    intro hnd
    have hnds : h.id ∉ (t.map (fun l => l.id)) ∧
        ((t.map (fun l => l.id))).Nodup := by
      have hc := hnd
      simp only [List.map_cons, List.nodup_cons] at hc
      exact hc
    by_cases hh : h.id = a
    · have hoff : offList (h :: t) a = (true, t) := by
        simp [offList, List.findIdx?_cons, hh]
      rw [hoff]
      have hne := hnds.1
      rw [hh] at hne
      simpa using hne
    · have iht := ih hnds.2
      have hhb : (h.id == a) = false := by simp [hh]
      cases hf : t.findIdx? (fun l => l.id == a) with
      | none =>
        have hoff : offList (h :: t) a = (false, h :: t) := by
          simp [offList, List.findIdx?_cons, hhb, List.findIdx?_succ, hf]
        rw [hoff]
        simp only [List.map_cons, List.mem_cons]
        rintro (h1 | h1)
        · exact hh h1.symm
        · have hall := List.findIdx?_eq_none_iff.mp hf
          obtain ⟨l2, hl2, hl2e⟩ := List.mem_map.mp h1
          have := hall l2 hl2
          simp [hl2e] at this
      | some j =>
        have hoff : offList (h :: t) a = (true, h :: t.eraseIdx j) := by
          simp [offList, List.findIdx?_cons, hhb, List.findIdx?_succ, hf,
            List.eraseIdx]
        rw [hoff]
        simp only [List.map_cons, List.mem_cons]
        rintro (h1 | h1)
        · exact hh h1.symm
        · have heq : (offList t a).2 = t.eraseIdx j := by
            simp [offList, hf]
          rw [heq] at iht
          exact iht h1

/-- With distinct listener ids, a `once` listener whose handler
completes is spliced out of the live array: once invoked, its id is
gone from the final array. -/
theorem execLoop_once_ok_removed :
    ∀ (arr : List Listener) (i : Nat),
      ((arr.map (fun l => l.id)).Nodup) →
      ∀ x ∈ (execLoop arr i).1, x.once = true → x.outcome = .ok →
        x.id ∉ ((execLoop arr i).2.map (fun l => l.id)) := by
  intro arr i
  induction arr, i using execLoop.induct with
  | case1 arr i hlt l hfil ih =>
    rw [execLoop, dif_pos hlt, if_pos hfil]
    exact ih
  | case2 arr i hlt l hfil r ih =>
    have hl : l = arr[i] := rfl
    rw [hl] at r
    rw [execLoop, dif_pos hlt, if_neg hfil]
    simp only [List.get_eq_getElem, r]
    intro hnd x hx h1 h2
    rcases List.mem_cons.mp hx with hxa | hxa
    · rw [hxa] at h2
      rw [h2] at r
      cases r
    · exact ih hnd x hxa h1 h2
  | case3 arr i hlt l hfil r honce arrp ih =>
    have hl : l = arr[i] := rfl
    rw [hl] at r honce
    rw [execLoop, dif_pos hlt, if_neg hfil]
    simp only [List.get_eq_getElem, r]
    rw [if_pos honce]
    intro hnd x hx h1 h2
    have harrp : arrp = (offList arr arr[i].id).2 := rfl
    have hndp : ((arrp.map (fun l => l.id)).Nodup) := by
      rw [harrp]
      exact ((offList_sublist arr arr[i].id).map _).nodup hnd
    rcases List.mem_cons.mp hx with hxa | hxa
    · have hxid : x.id = arr[i].id := by rw [hxa]
      rw [hxid]
      have hno : arr[i].id ∉ (arrp.map (fun l => l.id)) := by
        rw [harrp]
        exact offList_id_not_mem arr[i].id arr hnd
      intro hc
      exact hno (((execLoop_arr_sublist arrp (i + 1)).map _).subset hc)
    · exact ih hndp x hxa h1 h2
  | case4 arr i hlt l hfil r honce ih =>
    have hl : l = arr[i] := rfl
    rw [hl] at r honce
    rw [execLoop, dif_pos hlt, if_neg hfil]
    simp only [List.get_eq_getElem, r]
    rw [if_neg honce]
    intro hnd x hx h1 h2
    rcases List.mem_cons.mp hx with hxa | hxa
    · rw [hxa] at h1
      exact absurd h1 honce
    · exact ih hnd x hxa h1 h2
  | case5 arr i hlt =>
    rw [execLoop, dif_neg hlt]
    intro _ x hx
    cases hx

/-- **C8 (amended).** For a one-shot listener whose handler completes
successfully (registered under a unique id), emitting the event name
twice yields *at most* one invocation — not exactly one, see the
counterexample — and if it is invoked in the first emit it is removed
from the registry afterwards. -/
theorem once_listener_at_most_one_invocation (m : EMap) (name : String)
    (x : Listener) (hmem : x ∈ getE m name)
    (hnodup : ((getE m name).map (fun l => l.id)).Nodup)
    (honce : x.once = true) (hok : x.outcome = .ok) :
    List.count x.id (List.map (fun l => l.id)
      ((executeEventListeners m name).1
        ++ (executeEventListeners (executeEventListeners m name).2 name).1))
      ≤ 1 ∧
    (x.id ∈ (executeEventListeners m name).1.map (fun l => l.id) →
      x.id ∉ ((getE (executeEventListeners m name).2 name).map
        (fun l => l.id))) := by
  have hget2 : getE (executeEventListeners m name).2 name
      = (execLoop (getE m name) 0).2 :=
    getE_setE m name _
  have hsecond : (executeEventListeners (executeEventListeners m name).2
        name).1
      = (execLoop (execLoop (getE m name) 0).2 0).1 := by
    show (execLoop (getE (executeEventListeners m name).2 name) 0).1 = _
    rw [hget2]
  have hsubl1 : List.Sublist (execLoop (getE m name) 0).1 (getE m name) := by
    have := execLoop_log_sublist (getE m name) 0
    rwa [List.drop_zero] at this
  have hsubf1 : List.Sublist (execLoop (getE m name) 0).2 (getE m name) :=
    execLoop_arr_sublist (getE m name) 0
  have hnd_log1 : ((execLoop (getE m name) 0).1.map
      (fun l => l.id)).Nodup := (hsubl1.map _).nodup hnodup
  have hnd_fin1 : ((execLoop (getE m name) 0).2.map
      (fun l => l.id)).Nodup := (hsubf1.map _).nodup hnodup
  have hsubl2 : List.Sublist (execLoop (execLoop (getE m name) 0).2 0).1
      (execLoop (getE m name) 0).2 := by
    have := execLoop_log_sublist (execLoop (getE m name) 0).2 0
    rwa [List.drop_zero] at this
  have hnd_log2 : ((execLoop (execLoop (getE m name) 0).2 0).1.map
      (fun l => l.id)).Nodup := (hsubl2.map _).nodup hnd_fin1
  have hkey : x.id ∈ (executeEventListeners m name).1.map (fun l => l.id) →
      x.id ∉ ((execLoop (getE m name) 0).2.map (fun l => l.id)) := by
    intro hin
    obtain ⟨l, hl_mem, hl_id⟩ := List.mem_map.mp hin
    have hlr : l ∈ getE m name := hsubl1.subset hl_mem
    have hlx : l = x :=
      List.inj_on_of_nodup_map hnodup hlr hmem (by simpa using hl_id)
    rw [hlx] at hl_mem
    exact execLoop_once_ok_removed (getE m name) 0 hnodup x hl_mem honce hok
  constructor
  · rw [hsecond, List.map_append, List.count_append]
    by_cases hin : x.id ∈ List.map (fun l => l.id)
        (executeEventListeners m name).1
    · have hz2 : x.id ∉ List.map (fun l => l.id)
          (execLoop (execLoop (getE m name) 0).2 0).1 := by
        intro hc
        exact hkey hin ((hsubl2.map _).subset hc)
      have hc1 : List.count x.id (List.map (fun l => l.id)
          (executeEventListeners m name).1) ≤ 1 :=
        List.nodup_iff_count_le_one.mp hnd_log1 x.id
      have hc2 : List.count x.id (List.map (fun l => l.id)
          (execLoop (execLoop (getE m name) 0).2 0).1) = 0 :=
        List.count_eq_zero.mpr hz2
      omega
    · have hc1 : List.count x.id (List.map (fun l => l.id)
          (executeEventListeners m name).1) = 0 :=
        List.count_eq_zero.mpr hin
      have hc2 : List.count x.id (List.map (fun l => l.id)
          (execLoop (execLoop (getE m name) 0).2 0).1) ≤ 1 :=
        List.nodup_iff_count_le_one.mp hnd_log2 x.id
      omega
  · intro hin
    rw [hget2]
    exact hkey hin

theorem once_listener_at_most_one_invocation_witness :
    List.count (0 : Nat) (List.map (fun l => l.id)
      ((executeEventListeners [("m", [⟨0, 5, true, none, .ok⟩])] "m").1
        ++ (executeEventListeners (executeEventListeners
            [("m", [⟨0, 5, true, none, .ok⟩])] "m").2 "m").1)) ≤ 1 ∧
    ((0 : Nat) ∈ (executeEventListeners
        [("m", [⟨0, 5, true, none, .ok⟩])] "m").1.map (fun l => l.id) →
      (0 : Nat) ∉ ((getE (executeEventListeners
          [("m", [⟨0, 5, true, none, .ok⟩])] "m").2 "m").map
        (fun l => l.id))) :=
  once_listener_at_most_one_invocation [("m", [⟨0, 5, true, none, .ok⟩])]
    "m" ⟨0, 5, true, none, .ok⟩ (by decide) (by decide) rfl rfl

/-- The registry for the C8 counterexample: four one-shot listeners
registered through `once` on `"m"`, ids 0, 1, 2, 3, all succeeding. -/
def regC8 : EMap :=
  onceOn (onceOn (onceOn (onceOn [] "m" 0 .ok {}) "m" 1 .ok {}) "m"
    2 .ok {}) "m" 3 .ok {}

/-- **C8 counterexample.** All four listeners are one-shot and all
handlers succeed, yet emitting `"m"` twice invokes listener 3 *zero*
times, not exactly once: each successful one-shot removal splices the
live array and skips the following listener (emit 1 invokes 0 and 2,
emit 2 invokes 1; listener 3 is skipped both times). -/
theorem once_listener_skipped_counterexample :
    ((getE regC8 "m").map fun l => (l.id, l.once))
      = [(0, true), (1, true), (2, true), (3, true)] ∧
    List.count 3 (List.map (fun l => l.id)
      ((executeEventListeners regC8 "m").1
        ++ (executeEventListeners (executeEventListeners regC8 "m").2
            "m").1)) = 0 := by
  constructor
  · decide
  · simp [executeEventListeners, execLoop, offList, regC8, onceOn, onE,
      mkListener, setE, getE, lookupE, sortByPriority, insertByPriority,
      jsNumOr, List.findIdx?, List.eraseIdx, List.find?]

/-! ## C10 — a one-shot listener that fails is not removed -/

theorem offList_mem_of_ne (a : Nat) :
    ∀ (arr : List Listener) (x : Listener), x ∈ arr → x.id ≠ a →
      x ∈ (offList arr a).2 := by
  intro arr
  induction arr with
  | nil => intro x hx _; cases hx
  | cons h t ih =>
    intro x hx hne
    by_cases hh : h.id = a
    · have hoff : offList (h :: t) a = (true, t) := by
        simp [offList, List.findIdx?_cons, hh]
      rw [hoff]
      rcases List.mem_cons.mp hx with h1 | h1
      · rw [h1] at hne
        exact absurd hh hne
      · exact h1
    · have hhb : (h.id == a) = false := by simp [hh]
      cases hf : t.findIdx? (fun l => l.id == a) with
      | none =>
        have hoff : offList (h :: t) a = (false, h :: t) := by
          simp [offList, List.findIdx?_cons, hhb, List.findIdx?_succ, hf]
        rw [hoff]
        exact hx
      | some j =>
        have hoff : offList (h :: t) a = (true, h :: t.eraseIdx j) := by
          simp [offList, List.findIdx?_cons, hhb, List.findIdx?_succ, hf,
            List.eraseIdx]
        rw [hoff]
        rcases List.mem_cons.mp hx with h1 | h1
        · exact List.mem_cons.mpr (Or.inl h1)
        · have hrec := ih x h1 hne
          have heq : (offList t a).2 = t.eraseIdx j := by
            simp [offList, hf]
          rw [heq] at hrec
          exact List.mem_cons.mpr (Or.inr hrec)

/-- With distinct listener ids, a listener whose handler throws is never
spliced out of the live array: `off` is reached only after a handler
resolves, and each splice removes only the (distinct) completed `once`
listener. -/
theorem execLoop_err_survives :
    ∀ (arr : List Listener) (i : Nat), ((arr.map (fun l => l.id)).Nodup) →
      ∀ x ∈ arr, x.outcome = .err → x ∈ (execLoop arr i).2 := by
  intro arr i
  induction arr, i using execLoop.induct with
  | case1 arr i hlt l hfil ih =>
    rw [execLoop, dif_pos hlt, if_pos hfil]
    exact ih
  | case2 arr i hlt l hfil r ih =>
    have hl : l = arr[i] := rfl
    rw [hl] at r
    rw [execLoop, dif_pos hlt, if_neg hfil]
    simp only [List.get_eq_getElem, r]
    intro hnd x hx hxe
    exact ih hnd x hx hxe
  | case3 arr i hlt l hfil r honce arrp ih =>
    have hl : l = arr[i] := rfl
    rw [hl] at r honce
    rw [execLoop, dif_pos hlt, if_neg hfil]
    simp only [List.get_eq_getElem, r]
    rw [if_pos honce]
    intro hnd x hx hxe
    have hmemi : arr[i] ∈ arr := List.get_mem arr i hlt
    have hne : x.id ≠ arr[i].id := by
      intro hid
      have hxi : x = arr[i] :=
        List.inj_on_of_nodup_map hnd hx hmemi (by simpa using hid)
      rw [hxi] at hxe
      rw [hxe] at r
      cases r
    have harrp : arrp = (offList arr arr[i].id).2 := rfl
    have hndp : ((arrp.map (fun l => l.id)).Nodup) := by
      rw [harrp]
      exact ((offList_sublist arr arr[i].id).map _).nodup hnd
    have hmemp : x ∈ arrp := by
      rw [harrp]
      exact offList_mem_of_ne arr[i].id arr x hx hne
    exact ih hndp x hmemp hxe
  | case4 arr i hlt l hfil r honce ih =>
    have hl : l = arr[i] := rfl
    rw [hl] at r honce
    rw [execLoop, dif_pos hlt, if_neg hfil]
    simp only [List.get_eq_getElem, r]
    rw [if_neg honce]
    intro hnd x hx hxe
    exact ih hnd x hx hxe
  | case5 arr i hlt =>
    rw [execLoop, dif_neg hlt]
    intro _ x hx _
    exact hx

/-- The registry for the C10 counterexample, built through `once`: three
one-shot listeners, ids 0 and 1 succeeding, listener 2 throwing. -/
def regC10 : EMap :=
  onceOn (onceOn (onceOn [] "msg" 0 .ok {}) "msg" 1 .ok {}) "msg" 2 .err {}

/-- **C10 counterexample.** One-shot listener 2 throws during the first
emit: it is invoked (conjunct 2) and, not being removed by its failure,
is still registered afterwards (conjunct 3, the registry is now
listeners 1 and 2).  Yet the subsequent emit of `"msg"` does not invoke
it: it invokes only listener 1, whose one-shot removal splices the live
array and skips listener 2 (conjunct 4).  So "the same one-shot
listener is invoked again on a subsequent emit" fails on the code. -/
theorem once_error_listener_not_reinvoked_counterexample :
    ((getE regC10 "msg").map fun l => (l.id, l.once, l.outcome))
      = [(0, true, .ok), (1, true, .ok), (2, true, .err)] ∧
    ((executeEventListeners regC10 "msg").1.map fun l => l.id) = [0, 2] ∧
    ((getE (executeEventListeners regC10 "msg").2 "msg").map fun l => l.id)
      = [1, 2] ∧
    ((executeEventListeners (executeEventListeners regC10 "msg").2
        "msg").1.map fun l => l.id) = [1] := by
  refine ⟨by decide, ?_, ?_, ?_⟩ <;>
    simp [executeEventListeners, execLoop, offList, regC10, onceOn, onE,
      mkListener, setE, getE, lookupE, sortByPriority, insertByPriority,
      jsNumOr, List.findIdx?, List.eraseIdx, List.find?]

/-- **C10 (amended).** `off` is called only after the handler resolves,
so (under distinct listener ids) a one-shot listener whose handler
throws or times out is never removed by that failure: it is still
registered after the emit (first conjunct).  It is *not* in general
invoked again on a subsequent emit — a completed one-shot listener's
mid-iteration splice can skip it, see the counterexample; when no
one-shot listener in the registry completes successfully the iteration
is splice-free, and then the failing listener (with a passing filter)
is invoked by both emits and the registry is left unchanged (second
conjunct). -/
theorem once_listener_error_not_removed (m : EMap) (name : String)
    (x : Listener) (hmem : x ∈ getE m name) (honce : x.once = true)
    (herr : x.outcome = .err) (hfil : x.filterPass ≠ some false)
    (hnodup : ((getE m name).map (fun l => l.id)).Nodup) :
    x ∈ getE (executeEventListeners m name).2 name ∧
    ((∀ l ∈ getE m name, l.once = true → l.outcome = .err) →
      getE (executeEventListeners m name).2 name = getE m name ∧
      x ∈ (executeEventListeners m name).1 ∧
      x ∈ (executeEventListeners (executeEventListeners m name).2
        name).1) := by
  constructor
  · show x ∈ getE (setE m name (execLoop (getE m name) 0).2) name
    rw [getE_setE]
    exact execLoop_err_survives (getE m name) 0 hnodup x hmem herr
  · intro hall
    have hrun := execLoop_no_once_ok (getE m name) 0 hall
    have hpred : (!(x.filterPass == some false)) = true := by
      simp [hfil]
    have hmem1 : x ∈ (getE m name).filter
        (fun l => !(l.filterPass == some false)) :=
      List.mem_filter.mpr ⟨hmem, hpred⟩
    have h2 : getE (executeEventListeners m name).2 name = getE m name := by
      simp only [executeEventListeners, hrun]
      exact getE_setE m name (getE m name)
    refine ⟨h2, ?_, ?_⟩
    · simp only [executeEventListeners, hrun, List.drop_zero]
      exact hmem1
    · show x ∈ (execLoop (getE (executeEventListeners m name).2 name) 0).1
      rw [h2, hrun]
      simpa using hmem1

theorem once_listener_error_not_removed_witness :
    (⟨0, 5, true, none, .err⟩ : Listener)
      ∈ getE (executeEventListeners
          [("msg", [⟨0, 5, true, none, .err⟩])] "msg").2 "msg" ∧
    ((∀ l ∈ getE [("msg", [⟨0, 5, true, none, .err⟩])] "msg",
        l.once = true → l.outcome = .err) →
      getE (executeEventListeners
          [("msg", [⟨0, 5, true, none, .err⟩])] "msg").2 "msg"
        = getE [("msg", [⟨0, 5, true, none, .err⟩])] "msg" ∧
      (⟨0, 5, true, none, .err⟩ : Listener)
        ∈ (executeEventListeners
            [("msg", [⟨0, 5, true, none, .err⟩])] "msg").1 ∧
      (⟨0, 5, true, none, .err⟩ : Listener)
        ∈ (executeEventListeners (executeEventListeners
            [("msg", [⟨0, 5, true, none, .err⟩])] "msg").2 "msg").1) :=
  once_listener_error_not_removed [("msg", [⟨0, 5, true, none, .err⟩])]
    "msg" ⟨0, 5, true, none, .err⟩ (by decide) rfl rfl (by decide)
    (by decide)

end DiscordCore
